import Mathlib

/-!
Verification of two griffe utility modules against their specification:
the logger registry (`src/_griffe/logger.py`) and the call keyword-argument
extractor (`src/griffe/agents/nodes/_parameters.py`).

The logger registry is embedded as explicit state passing: the Python class
attributes `_default_logger` and `_instances` become fields of `LoggerState`,
Python object identity of `_Logger` instances becomes a numeric `id` drawn
from a counter, and the mutable `_logger` delegate attribute becomes the
`logger` field of a `Handle`.  A backend factory that may raise is a function
into `Except`.

The extractor is embedded as a fold over the keyword list, with an
association list carrying Python-dict insertion semantics (first-insertion
position, last value wins).
-/

namespace Griffe

/-- A `_Logger` instance: `id` models Python object identity, `logger` is the
mutable `_logger` delegate backend attribute. -/
structure Handle (β : Type) where
  id : Nat
  logger : β
  deriving Repr, DecidableEq

/-- The class-level mutable state of `_Logger`: the current backend factory
`_default_logger` and the registry `_instances` (a Python dict, embedded as an
insertion-ordered association list).  `nextId` is the identity counter. -/
structure LoggerState (ε β : Type) where
  defaultLogger : String → Except ε β
  instances : List (String × Handle β)
  nextId : Nat

/-- Python `name in cls._instances` / `cls._instances[name]`. -/
def findInst {ε β : Type} (s : LoggerState ε β) (name : String) : Option (Handle β) :=
  (s.instances.find? (fun p => p.1 == name)).map Prod.snd

/-- `_Logger.get`: return the registered handle for `name`, or construct one
with the current factory (`_Logger.__init__` calls `_default_logger(name)`),
register it and return it.  A factory exception propagates and leaves the
registry untouched. -/
def get {ε β : Type} (s : LoggerState ε β) (name : String) :
    Except ε (Handle β × LoggerState ε β) :=
  match findInst s name with
  | some h => Except.ok (h, s)
  | none =>
    match s.defaultLogger name with
    | Except.error e => Except.error e
    | Except.ok b =>
      let h : Handle β := ⟨s.nextId, b⟩
      Except.ok (h, { s with instances := s.instances ++ [(name, h)], nextId := s.nextId + 1 })

/-- The rebinding loop of `_Logger._patch_loggers`: mutate each registered
handle's `_logger` in order; on a factory exception the already-visited
handles keep their new delegates and the loop stops.  Returns the resulting
registry contents and the exception, if any. -/
def patchInstances {ε β : Type} (f : String → Except ε β) :
    List (String × Handle β) → List (String × Handle β) × Option ε
  | [] => ([], none)
  | (n, h) :: rest =>
    match f n with
    | Except.error e => ((n, h) :: rest, some e)
    | Except.ok b =>
      let r := patchInstances f rest
      ((n, ⟨h.id, b⟩) :: r.1, r.2)

/-- `_Logger._patch_loggers`: rebind every registered handle's delegate with
`f`, then (only if the loop completed) install `f` as the default factory. -/
def patch_loggers {ε β : Type} (s : LoggerState ε β) (f : String → Except ε β) :
    LoggerState ε β × Option ε :=
  let r := patchInstances f s.instances
  match r.2 with
  | some e => ({ s with instances := r.1 }, some e)
  | none => ({ s with instances := r.1, defaultLogger := f }, none)

/-- Registry well-formedness: names are unique keys, handle identities are
unique, and every identity is below the counter. -/
def WF {ε β : Type} (s : LoggerState ε β) : Prop :=
  (s.instances.map Prod.fst).Nodup ∧
  (s.instances.map (fun p => p.2.id)).Nodup ∧
  ∀ p ∈ s.instances, p.2.id < s.nextId

/-- The state at process start: empty registry, standard backend factory. -/
def initState {β : Type} (std : String → β) : LoggerState Empty β :=
  { defaultLogger := fun n => Except.ok (std n), instances := [], nextId := 0 }

/-- The value the rebinding loop leaves in a registry entry it has visited
successfully: same name, same identity, delegate replaced by the factory
result.  (Entries where the factory fails are left untouched.) -/
def rebindOk {ε β : Type} (f : String → Except ε β) (p : String × Handle β) :
    String × Handle β :=
  match f p.1 with
  | Except.ok b => (p.1, ⟨p.2.id, b⟩)
  | Except.error _ => p

/-- An example empty registry state over concrete types, for witnesses. -/
def exState0 : LoggerState Unit Nat :=
  { defaultLogger := fun _ => Except.ok 7, instances := [], nextId := 0 }

/-- `exState0` after `get "a"`. -/
def exState0a : LoggerState Unit Nat :=
  { exState0 with instances := [("a", ⟨0, 7⟩)], nextId := 1 }

/-- `exState0a` after `get "b"`. -/
def exState0ab : LoggerState Unit Nat :=
  { exState0a with instances := exState0a.instances ++ [("b", ⟨1, 7⟩)], nextId := 2 }

/-- An example registry holding two handles, for witnesses. -/
def exState1 : LoggerState Unit Nat :=
  { defaultLogger := fun _ => Except.ok 7,
    instances := [("a", ⟨0, 7⟩), ("b", ⟨1, 7⟩)], nextId := 2 }

/-- An example state whose current factory always raises, for witnesses. -/
def exStateBad : LoggerState Unit Nat :=
  { defaultLogger := fun _ => Except.error (), instances := [("a", ⟨0, 5⟩)], nextId := 1 }

/-- An example total replacement factory, for witnesses. -/
def exFacGood : String → Except Unit Nat := fun n => Except.ok n.length

/-- An example replacement factory that raises on the name `b`, for witnesses. -/
def exFacBad : String → Except Unit Nat :=
  fun n => if n = "b" then Except.error () else Except.ok 9

/-- An `ast.keyword` node: `arg` is the keyword name, `none` for a `**`
double-star expansion; `value` is the value expression node. -/
structure Keyword (χ : Type) where
  arg : Option String
  value : χ
  deriving Repr, DecidableEq

/-- An `ast.Call` node, restricted to the field the extractor reads. -/
structure Call (χ : Type) where
  keywords : List (Keyword χ)
  deriving Repr, DecidableEq

/-- Python dict assignment `d[k] = v`: replaces the value in place when the
key is present (keeping its original insertion position), appends otherwise. -/
def dictInsert {υ : Type} (m : List (String × υ)) (k : String) (v : υ) :
    List (String × υ) :=
  match m with
  | [] => [(k, v)]
  | p :: rest => if p.1 = k then (k, v) :: rest else p :: dictInsert rest k v

/-- Python dict lookup `d.get(k)` (first entry with the key; a dict never
holds a duplicate key). -/
def findVal {υ : Type} (m : List (String × υ)) (k : String) : Option υ :=
  match m with
  | [] => none
  | p :: rest => if p.1 = k then some p.2 else findVal rest k

/-- One step of the dict comprehension in `get_call_keyword_arguments`: the
filter `if kw.arg` keeps only truthy names (skipping `None`, i.e. `**`
entries, and the falsy empty string), and the kept entries are assigned into
the dict. -/
def kwStep {χ σ υ : Type} (resolve : χ → σ → υ) (parent : σ)
    (m : List (String × υ)) (kw : Keyword χ) : List (String × υ) :=
  match kw.arg with
  | none => m
  | some a => if a = "" then m else dictInsert m a (resolve kw.value parent)

/-- `get_call_keyword_arguments(node, parent)`, the dict comprehension
`{kw.arg: safe_get_expression(kw.value, parent) for kw in node.keywords if kw.arg}`.
`resolve` stands for the external `safe_get_expression` capability, which is
assumed total. -/
def get_call_keyword_arguments {χ σ υ : Type} (resolve : χ → σ → υ)
    (node : Call χ) (parent : σ) : List (String × υ) :=
  node.keywords.foldl (kwStep resolve parent) []

/-- The Python truthiness test `if kw.arg`. -/
def kwTruthy {χ : Type} (kw : Keyword χ) : Bool :=
  match kw.arg with
  | none => false
  | some a => !(a == "")

theorem WF_initState {β : Type} (std : String → β) : WF (initState std) := by
  refine ⟨List.nodup_nil, List.nodup_nil, ?_⟩
  intro p hp
  simp [initState] at hp

theorem findInst_none_iff {ε β : Type} (s : LoggerState ε β) (name : String) :
    findInst s name = none ↔ ∀ p ∈ s.instances, p.1 ≠ name := by
  unfold findInst
  simp [List.find?_eq_none]

theorem findInst_mem {ε β : Type} {s : LoggerState ε β} {name : String} {h : Handle β}
    (hf : findInst s name = some h) : (name, h) ∈ s.instances := by
  unfold findInst at hf
  obtain ⟨p, hp, hmap⟩ := Option.map_eq_some'.mp hf
  have hkey : p.1 = name := by
    have := List.find?_some hp
    exact beq_iff_eq.mp this
  have hmem := List.mem_of_find?_eq_some hp
  have : p = (name, h) := by
    cases p
    simp_all
  exact this ▸ hmem

theorem findInst_append_self {ε β : Type} (s : LoggerState ε β) (name : String)
    (h : Handle β) (hnone : s.instances.find? (fun p => p.1 == name) = none) :
    findInst { s with instances := s.instances ++ [(name, h)] } name = some h := by
  unfold findInst
  simp only [List.find?_append, hnone, Option.none_or]
  simp [List.find?]

theorem get_twice_eq {ε β : Type} {s s1 s2 : LoggerState ε β} {name : String}
    {h1 h2 : Handle β}
    (hg1 : get s name = Except.ok (h1, s1)) (hg2 : get s1 name = Except.ok (h2, s2)) :
    h1 = h2 ∧ s2 = s1 := by
  unfold get at hg1
  cases hfind : findInst s name with
  | some h =>
    rw [hfind] at hg1
    simp only [Except.ok.injEq, Prod.mk.injEq] at hg1
    obtain ⟨hh, hs⟩ := hg1
    subst hh hs
    unfold get at hg2
    rw [hfind] at hg2
    simp only [Except.ok.injEq, Prod.mk.injEq] at hg2
    exact ⟨hg2.1, hg2.2.symm⟩
  | none =>
    rw [hfind] at hg1
    cases hfac : s.defaultLogger name with
    | error e => rw [hfac] at hg1; exact absurd hg1 (by simp)
    | ok b =>
      rw [hfac] at hg1
      simp only [Except.ok.injEq, Prod.mk.injEq] at hg1
      obtain ⟨hh, hs⟩ := hg1
      have hfnone : s.instances.find? (fun p => p.1 == name) = none := by
        unfold findInst at hfind
        exact Option.map_eq_none'.mp hfind
      have hfind1 : findInst s1 name = some h1 := by
        rw [← hs, ← hh]
        exact findInst_append_self s name ⟨s.nextId, b⟩ hfnone
      unfold get at hg2
      rw [hfind1] at hg2
      simp only [Except.ok.injEq, Prod.mk.injEq] at hg2
      exact ⟨hg2.1, hg2.2.symm⟩

theorem WF_get {ε β : Type} {s s1 : LoggerState ε β} {name : String} {h1 : Handle β}
    (hWF : WF s) (hg : get s name = Except.ok (h1, s1)) : WF s1 := by
  obtain ⟨hkeys, hids, hbound⟩ := hWF
  unfold get at hg
  cases hfind : findInst s name with
  | some h =>
    rw [hfind] at hg
    simp only [Except.ok.injEq, Prod.mk.injEq] at hg
    exact hg.2 ▸ ⟨hkeys, hids, hbound⟩
  | none =>
    rw [hfind] at hg
    cases hfac : s.defaultLogger name with
    | error e => rw [hfac] at hg; exact absurd hg (by simp)
    | ok b =>
      rw [hfac] at hg
      simp only [Except.ok.injEq, Prod.mk.injEq] at hg
      obtain ⟨-, hs⟩ := hg
      have hfresh : ∀ p ∈ s.instances, p.1 ≠ name := (findInst_none_iff s name).mp hfind
      subst hs
      refine ⟨?_, ?_, ?_⟩
      · simp only [List.map_append, List.map_cons, List.map_nil]
        rw [List.nodup_append]
        refine ⟨hkeys, List.nodup_singleton name, ?_⟩
        intro a ha hb
        simp only [List.mem_singleton] at hb
        obtain ⟨p, hp, rfl⟩ := List.mem_map.mp ha
        exact hfresh p hp hb
      · simp only [List.map_append, List.map_cons, List.map_nil]
        rw [List.nodup_append]
        refine ⟨hids, List.nodup_singleton _, ?_⟩
        intro a ha hb
        simp only [List.mem_singleton] at hb
        obtain ⟨p, hp, rfl⟩ := List.mem_map.mp ha
        exact absurd hb (Nat.ne_of_lt (hbound p hp))
      · intro p hp
        rcases List.mem_append.mp hp with hmem | hmem
        · exact Nat.lt_succ_of_lt (hbound p hmem)
        · simp only [List.mem_singleton] at hmem
          subst hmem
          exact Nat.lt_succ_self _

theorem patchInstances_map_key_id {ε β : Type} (f : String → Except ε β) :
    ∀ l : List (String × Handle β),
      (patchInstances f l).1.map (fun p => (p.1, p.2.id)) = l.map (fun p => (p.1, p.2.id))
  | [] => rfl
  | (n, h) :: rest => by
    unfold patchInstances
    cases hf : f n with
    | error e => simp
    | ok b =>
      simp only [List.map_cons]
      exact congrArg (List.cons (n, h.id)) (patchInstances_map_key_id f rest)

theorem patch_loggers_map_key_id {ε β : Type} (s : LoggerState ε β)
    (f : String → Except ε β) :
    (patch_loggers s f).1.instances.map (fun p => (p.1, p.2.id)) =
      s.instances.map (fun p => (p.1, p.2.id)) := by
  cases herr : (patchInstances f s.instances).2 with
  | none =>
    unfold patch_loggers
    simp only [herr]
    exact patchInstances_map_key_id f s.instances
  | some e =>
    unfold patch_loggers
    simp only [herr]
    exact patchInstances_map_key_id f s.instances

theorem patch_loggers_nextId {ε β : Type} (s : LoggerState ε β)
    (f : String → Except ε β) : (patch_loggers s f).1.nextId = s.nextId := by
  cases herr : (patchInstances f s.instances).2 <;>
    (unfold patch_loggers; simp only [herr])

theorem WF_patch_loggers {ε β : Type} {s : LoggerState ε β} (hWF : WF s)
    (f : String → Except ε β) : WF (patch_loggers s f).1 := by
  obtain ⟨hkeys, hids, hbound⟩ := hWF
  have hmap := patch_loggers_map_key_id s f
  refine ⟨?_, ?_, ?_⟩
  · have : (patch_loggers s f).1.instances.map Prod.fst = s.instances.map Prod.fst := by
      have h1 := congrArg (List.map Prod.fst) hmap
      simpa [List.map_map, Function.comp] using h1
    rw [this]; exact hkeys
  · have : (patch_loggers s f).1.instances.map (fun p => p.2.id) =
        s.instances.map (fun p => p.2.id) := by
      have h1 := congrArg (List.map Prod.snd) hmap
      simpa [List.map_map, Function.comp] using h1
    rw [this]; exact hids
  · intro p hp
    have hmem : (p.1, p.2.id) ∈ s.instances.map (fun p => (p.1, p.2.id)) := by
      rw [← hmap]
      exact List.mem_map_of_mem _ hp
    obtain ⟨q, hq, hqe⟩ := List.mem_map.mp hmem
    have : q.2.id = p.2.id := congrArg Prod.snd hqe
    rw [patch_loggers_nextId]
    exact this ▸ hbound q hq

theorem get_mem {ε β : Type} {s s1 : LoggerState ε β} {name : String} {h1 : Handle β}
    (hg : get s name = Except.ok (h1, s1)) : (name, h1) ∈ s1.instances := by
  unfold get at hg
  cases hfind : findInst s name with
  | some h =>
    rw [hfind] at hg
    simp only [Except.ok.injEq, Prod.mk.injEq] at hg
    obtain ⟨hh, hs⟩ := hg
    subst hh hs
    exact findInst_mem hfind
  | none =>
    rw [hfind] at hg
    cases hfac : s.defaultLogger name with
    | error e => rw [hfac] at hg; exact absurd hg (by simp)
    | ok b =>
      rw [hfac] at hg
      simp only [Except.ok.injEq, Prod.mk.injEq] at hg
      obtain ⟨hh, hs⟩ := hg
      subst hh hs
      simp

theorem patch_loggers_instances {ε β : Type} (s : LoggerState ε β)
    (f : String → Except ε β) :
    (patch_loggers s f).1.instances = (patchInstances f s.instances).1 := by
  cases herr : (patchInstances f s.instances).2 <;>
    (unfold patch_loggers; simp only [herr])

theorem patch_loggers_err {ε β : Type} (s : LoggerState ε β)
    (f : String → Except ε β) :
    (patch_loggers s f).2 = (patchInstances f s.instances).2 := by
  cases herr : (patchInstances f s.instances).2 <;>
    (unfold patch_loggers; simp only [herr])

theorem patch_loggers_factory_of_ok {ε β : Type} {s : LoggerState ε β}
    {f : String → Except ε β} (hok : (patch_loggers s f).2 = none) :
    (patch_loggers s f).1.defaultLogger = f := by
  rw [patch_loggers_err] at hok
  unfold patch_loggers
  simp only [hok]

theorem patchInstances_ok_mem {ε β : Type} (f : String → Except ε β) :
    ∀ (l : List (String × Handle β)) (n : String) (h : Handle β),
      (patchInstances f l).2 = none → (n, h) ∈ l →
      ∃ b, f n = Except.ok b ∧ (n, ⟨h.id, b⟩) ∈ (patchInstances f l).1
  | [], _, _, _, hmem => absurd hmem (List.not_mem_nil _)
  | (m, g) :: rest, n, h, hok, hmem => by
    unfold patchInstances at hok ⊢
    cases hf : f m with
    | error e => rw [hf] at hok; exact absurd hok (by simp)
    | ok b0 =>
      rw [hf] at hok
      simp only at hok
      rcases List.mem_cons.mp hmem with heq | hmem'
      · obtain ⟨hn, hh⟩ := Prod.mk.injEq .. ▸ heq
        subst hn hh
        exact ⟨b0, hf, by simp⟩
      · obtain ⟨b, hb, hbmem⟩ := patchInstances_ok_mem f rest n h hok hmem'
        exact ⟨b, hb, by simp [List.mem_cons]; right; exact hbmem⟩

theorem patchInstances_split {ε β : Type} (f : String → Except ε β)
    (n : String) (h : Handle β) (e : ε) (hn : f n = Except.error e) :
    ∀ (l1 l2 : List (String × Handle β)),
      (∀ p ∈ l1, ∃ b, f p.1 = Except.ok b) →
      patchInstances f (l1 ++ (n, h) :: l2) = (l1.map (rebindOk f) ++ (n, h) :: l2, some e)
  | [], l2, _ => by
    simp only [List.nil_append, List.map_nil]
    unfold patchInstances
    rw [hn]
  | (m, g) :: l1, l2, hall => by
    obtain ⟨b, hb⟩ := hall (m, g) (List.mem_cons_self _ _)
    have ih := patchInstances_split f n h e hn l1 l2
      (fun p hp => hall p (List.mem_cons_of_mem _ hp))
    simp only [List.cons_append, List.map_cons]
    unfold patchInstances
    rw [hb, ih]
    have hrb : rebindOk f (m, g) = (m, ⟨g.id, b⟩) := by
      unfold rebindOk
      rw [hb]
    rw [hrb]

/-- C1: for every name, calling `get` twice returns the same handle instance
both times, and across any sequence of `get` and `patch` operations the
registry keeps at most one handle instance per name (well-formedness, whose
first component is uniqueness of names, is preserved by both operations). -/
theorem get_identity_stable_and_unique_per_name {ε β : Type}
    (s : LoggerState ε β) (name : String) (hWF : WF s) :
    (∀ h1 s1 h2 s2, get s name = Except.ok (h1, s1) →
      get s1 name = Except.ok (h2, s2) → h1 = h2) ∧
    (∀ h1 s1, get s name = Except.ok (h1, s1) → WF s1) ∧
    (∀ f, WF (patch_loggers s f).1) :=
  ⟨fun _ _ _ _ hg1 hg2 => (get_twice_eq hg1 hg2).1,
   fun _ _ hg => WF_get hWF hg,
   fun f => WF_patch_loggers hWF f⟩

theorem WF_exState0 : WF exState0 :=
  ⟨List.nodup_nil, List.nodup_nil, fun p hp => absurd hp (List.not_mem_nil p)⟩

theorem C1_witness :
    WF exState0 ∧
    ((∀ h1 s1 h2 s2, get exState0 "x" = Except.ok (h1, s1) →
        get s1 "x" = Except.ok (h2, s2) → h1 = h2) ∧
      (∀ h1 s1, get exState0 "x" = Except.ok (h1, s1) → WF s1) ∧
      (∀ f, WF (patch_loggers exState0 f).1)) :=
  ⟨WF_exState0, get_identity_stable_and_unique_per_name exState0 "x" WF_exState0⟩

/-- C2: after a `patch(f)` call that completes without a factory exception,
every handle registered before the call under a name `n` keeps its identity
but has its delegate backend replaced by the value of `f n`, computed during
the patch call. -/
theorem patch_rebinds_existing_handles {ε β : Type} (s : LoggerState ε β)
    (f : String → Except ε β) (hok : (patch_loggers s f).2 = none)
    (n : String) (h : Handle β) (hmem : (n, h) ∈ s.instances) :
    ∃ b, f n = Except.ok b ∧ (n, ⟨h.id, b⟩) ∈ (patch_loggers s f).1.instances := by
  rw [patch_loggers_err] at hok
  rw [patch_loggers_instances]
  exact patchInstances_ok_mem f s.instances n h hok hmem

theorem C2_witness :
    (patch_loggers exState1 exFacGood).2 = none ∧
    ("a", (⟨0, 7⟩ : Handle Nat)) ∈ exState1.instances ∧
    ∃ b, exFacGood "a" = Except.ok b ∧
      ("a", (⟨0, b⟩ : Handle Nat)) ∈ (patch_loggers exState1 exFacGood).1.instances :=
  ⟨rfl, by simp [exState1],
    patch_rebinds_existing_handles exState1 exFacGood rfl "a" ⟨0, 7⟩ (by simp [exState1])⟩

/-- C3: after a successful `patch(f)`, a handle obtained by `get` for a name
not yet registered is constructed with the new factory: its delegate is the
value of `f n3`. -/
theorem patch_affects_future_handles {ε β : Type} (s : LoggerState ε β)
    (f : String → Except ε β) (hok : (patch_loggers s f).2 = none)
    (n3 : String) (b : β) (hfresh : findInst (patch_loggers s f).1 n3 = none)
    (hb : f n3 = Except.ok b) :
    ∃ s2, get (patch_loggers s f).1 n3 =
      Except.ok ((⟨(patch_loggers s f).1.nextId, b⟩ : Handle β), s2) := by
  have hres : get (patch_loggers s f).1 n3 =
      Except.ok ((⟨(patch_loggers s f).1.nextId, b⟩ : Handle β),
        { defaultLogger := f,
          instances := (patch_loggers s f).1.instances ++
            [(n3, ⟨(patch_loggers s f).1.nextId, b⟩)],
          nextId := (patch_loggers s f).1.nextId + 1 }) := by
    unfold get
    rw [hfresh, patch_loggers_factory_of_ok hok, hb]
  exact ⟨_, hres⟩

theorem C3_witness :
    (patch_loggers exState1 exFacGood).2 = none ∧
    findInst (patch_loggers exState1 exFacGood).1 "c" = none ∧
    exFacGood "c" = Except.ok 1 ∧
    ∃ s2, get (patch_loggers exState1 exFacGood).1 "c" =
      Except.ok ((⟨(patch_loggers exState1 exFacGood).1.nextId, 1⟩ : Handle Nat), s2) :=
  ⟨rfl, rfl, rfl,
    patch_affects_future_handles exState1 exFacGood rfl "c" 1 rfl rfl⟩

/-- C7: handles obtained by `get` for two distinct names are distinct
instances. -/
theorem get_distinct_names_distinct_handles {ε β : Type}
    {s s1 s2 : LoggerState ε β} {n1 n2 : String} {h1 h2 : Handle β}
    (hWF : WF s) (hne : n1 ≠ n2)
    (hg1 : get s n1 = Except.ok (h1, s1)) (hg2 : get s1 n2 = Except.ok (h2, s2)) :
    h1 ≠ h2 := by
  have hWF1 : WF s1 := WF_get hWF hg1
  have hm1 : (n1, h1) ∈ s1.instances := get_mem hg1
  obtain ⟨hkeys1, hids1, hbound1⟩ := hWF1
  unfold get at hg2
  cases hfind : findInst s1 n2 with
  | some h =>
    rw [hfind] at hg2
    simp only [Except.ok.injEq, Prod.mk.injEq] at hg2
    have hm2 : (n2, h2) ∈ s1.instances := by
      rw [← hg2.1]
      exact findInst_mem hfind
    intro hcontra
    have heq := List.inj_on_of_nodup_map hids1 hm1 hm2 (by simp [hcontra])
    exact hne (congrArg Prod.fst heq)
  | none =>
    rw [hfind] at hg2
    cases hfac : s1.defaultLogger n2 with
    | error e => rw [hfac] at hg2; exact absurd hg2 (by simp)
    | ok b =>
      rw [hfac] at hg2
      simp only [Except.ok.injEq, Prod.mk.injEq] at hg2
      obtain ⟨hh, -⟩ := hg2
      subst hh
      intro hcontra
      have hlt : h1.id < s1.nextId := hbound1 (n1, h1) hm1
      rw [hcontra] at hlt
      exact absurd hlt (Nat.lt_irrefl _)

theorem C7_witness :
    WF exState0 ∧ ("a" : String) ≠ "b" ∧
    get exState0 "a" = Except.ok ((⟨0, 7⟩ : Handle Nat), exState0a) ∧
    get exState0a "b" = Except.ok ((⟨1, 7⟩ : Handle Nat), exState0ab) ∧
    (⟨0, 7⟩ : Handle Nat) ≠ ⟨1, 7⟩ :=
  ⟨WF_exState0, by decide, rfl, rfl,
    get_distinct_names_distinct_handles WF_exState0 (by decide)
      (rfl : get exState0 "a" = Except.ok ((⟨0, 7⟩ : Handle Nat), exState0a))
      (rfl : get exState0a "b" = Except.ok ((⟨1, 7⟩ : Handle Nat), exState0ab))⟩

/-- C8: a factory exception propagates uncaught to the caller: `get` on a
fresh name returns the factory's error, and `patch` whose factory fails on a
registered handle returns that error; neither catches it. -/
theorem factory_error_propagates {ε β : Type} (s : LoggerState ε β) :
    (∀ name e, findInst s name = none → s.defaultLogger name = Except.error e →
      get s name = Except.error e) ∧
    (∀ (f : String → Except ε β) l1 n h l2 e,
      s.instances = l1 ++ (n, h) :: l2 →
      (∀ p ∈ l1, ∃ b, f p.1 = Except.ok b) → f n = Except.error e →
      (patch_loggers s f).2 = some e) := by
  constructor
  · intro name e hfresh herr
    unfold get
    rw [hfresh, herr]
  · intro f l1 n h l2 e hinst hall hn
    rw [patch_loggers_err, hinst, patchInstances_split f n h e hn l1 l2 hall]

theorem C8_witness :
    (findInst exStateBad "b" = none ∧
      exStateBad.defaultLogger "b" = Except.error () ∧
      get exStateBad "b" = Except.error ()) ∧
    (exStateBad.instances = [] ++ ("a", (⟨0, 5⟩ : Handle Nat)) :: [] ∧
      (fun _ : String => (Except.error () : Except Unit Nat)) "a" = Except.error () ∧
      (patch_loggers exStateBad (fun _ => Except.error ())).2 = some ()) :=
  ⟨⟨rfl, rfl, (factory_error_propagates exStateBad).1 "b" () rfl rfl⟩,
    ⟨rfl, rfl,
      (factory_error_propagates exStateBad).2 (fun _ => Except.error ())
        [] "a" ⟨0, 5⟩ [] () rfl (fun p hp => absurd hp (List.not_mem_nil p)) rfl⟩⟩

/-- C9: `patch` is not atomic under factory failure: if `f` fails on the
handle registered under `n`, the handles before it keep their newly assigned
`f(name)` delegates, the remaining handles keep their previous delegates, the
default factory is left unchanged, and the error is returned. -/
theorem patch_not_atomic_on_factory_error {ε β : Type} (s : LoggerState ε β)
    (f : String → Except ε β) (l1 l2 : List (String × Handle β))
    (n : String) (h : Handle β) (e : ε)
    (hinst : s.instances = l1 ++ (n, h) :: l2)
    (hall : ∀ p ∈ l1, ∃ b, f p.1 = Except.ok b)
    (hn : f n = Except.error e) :
    patch_loggers s f =
      ({ s with instances := l1.map (rebindOk f) ++ (n, h) :: l2 }, some e) := by
  have hsplit := patchInstances_split f n h e hn l1 l2 hall
  unfold patch_loggers
  rw [hinst, hsplit]

theorem C9_witness :
    exState1.instances = [("a", (⟨0, 7⟩ : Handle Nat))] ++ ("b", (⟨1, 7⟩ : Handle Nat)) :: [] ∧
    exFacBad "b" = Except.error () ∧
    patch_loggers exState1 exFacBad =
      ({ exState1 with
          instances := [("a", (⟨0, 7⟩ : Handle Nat))].map (rebindOk exFacBad) ++
            ("b", (⟨1, 7⟩ : Handle Nat)) :: [] }, some ()) :=
  ⟨rfl, rfl,
    patch_not_atomic_on_factory_error exState1 exFacBad
      [("a", ⟨0, 7⟩)] [] "b" ⟨1, 7⟩ () rfl
      (by intro p hp; rw [List.mem_singleton] at hp; subst hp; exact ⟨9, rfl⟩) rfl⟩

/-- C10: a successful `patch` leaves the registry contents intact: the
sequence of (name, handle identity) pairs is unchanged, as is the identity
counter; only the delegate fields and the default factory change. -/
theorem patch_preserves_registry_contents {ε β : Type} (s : LoggerState ε β)
    (f : String → Except ε β) (hok : (patch_loggers s f).2 = none) :
    (patch_loggers s f).1.instances.map (fun p => (p.1, p.2.id)) =
      s.instances.map (fun p => (p.1, p.2.id)) ∧
    (patch_loggers s f).1.nextId = s.nextId ∧
    (patch_loggers s f).1.defaultLogger = f :=
  ⟨patch_loggers_map_key_id s f, patch_loggers_nextId s f,
    patch_loggers_factory_of_ok hok⟩

theorem C10_witness :
    (patch_loggers exState1 exFacGood).2 = none ∧
    ((patch_loggers exState1 exFacGood).1.instances.map (fun p => (p.1, p.2.id)) =
        exState1.instances.map (fun p => (p.1, p.2.id)) ∧
      (patch_loggers exState1 exFacGood).1.nextId = exState1.nextId ∧
      (patch_loggers exState1 exFacGood).1.defaultLogger = exFacGood) :=
  ⟨rfl, patch_preserves_registry_contents exState1 exFacGood rfl⟩

theorem findVal_dictInsert_self {υ : Type} (k : String) (v : υ) :
    ∀ m : List (String × υ), findVal (dictInsert m k v) k = some v
  | [] => by simp [dictInsert, findVal]
  | p :: m => by
    by_cases hpk : p.1 = k
    · simp [dictInsert, findVal, hpk]
    · simp [dictInsert, findVal, hpk, findVal_dictInsert_self k v m]

theorem findVal_dictInsert_ne {υ : Type} {k a : String} (hne : k ≠ a) (v : υ) :
    ∀ m : List (String × υ), findVal (dictInsert m k v) a = findVal m a
  | [] => by simp [dictInsert, findVal, hne]
  | p :: m => by
    by_cases hpk : p.1 = k
    · have hpa : ¬p.1 = a := by rw [hpk]; exact hne
      simp [dictInsert, findVal, hpk, hne, hpa]
    · simp [dictInsert, findVal, hpk, findVal_dictInsert_ne hne v m]

theorem keys_dictInsert {υ : Type} (k : String) (v : υ) :
    ∀ m : List (String × υ), (dictInsert m k v).map Prod.fst =
      if k ∈ m.map Prod.fst then m.map Prod.fst else m.map Prod.fst ++ [k]
  | [] => by simp [dictInsert]
  | p :: m => by
    by_cases hpk : p.1 = k
    · simp [dictInsert, hpk]
    · have hne : k ≠ p.1 := fun h => hpk h.symm
      by_cases hmem : k ∈ m.map Prod.fst <;>
        simp [dictInsert, hpk, hne, hmem, keys_dictInsert k v m]

theorem keys_nodup_dictInsert {υ : Type} {m : List (String × υ)} (k : String) (v : υ)
    (hnod : (m.map Prod.fst).Nodup) : ((dictInsert m k v).map Prod.fst).Nodup := by
  rw [keys_dictInsert]
  by_cases hmem : k ∈ m.map Prod.fst
  · simpa [hmem] using hnod
  · simp only [hmem, if_false]
    rw [List.nodup_append]
    refine ⟨hnod, List.nodup_singleton k, ?_⟩
    intro a ham hak
    rw [List.mem_singleton] at hak
    subst hak
    exact hmem ham

theorem keys_nodup_kwStep {χ σ υ : Type} (resolve : χ → σ → υ) (parent : σ)
    {m : List (String × υ)} (kw : Keyword χ) (hnod : (m.map Prod.fst).Nodup) :
    ((kwStep resolve parent m kw).map Prod.fst).Nodup := by
  unfold kwStep
  cases kw.arg with
  | none => exact hnod
  | some a =>
    by_cases ha : a = ""
    · simpa [ha] using hnod
    · simpa [ha] using keys_nodup_dictInsert a (resolve kw.value parent) hnod

theorem keys_nodup_foldl {χ σ υ : Type} (resolve : χ → σ → υ) (parent : σ) :
    ∀ (kws : List (Keyword χ)) (m : List (String × υ)),
      (m.map Prod.fst).Nodup →
      ((List.foldl (kwStep resolve parent) m kws).map Prod.fst).Nodup
  | [], _, hnod => hnod
  | kw :: kws, m, hnod =>
    keys_nodup_foldl resolve parent kws (kwStep resolve parent m kw)
      (keys_nodup_kwStep resolve parent kw hnod)

theorem mem_keys_of_findVal_some {υ : Type} {a : String} {v : υ} :
    ∀ {m : List (String × υ)}, findVal m a = some v → a ∈ m.map Prod.fst
  | [], h => by simp [findVal] at h
  | p :: m, h => by
    by_cases hpa : p.1 = a
    · simp [hpa]
    · simp only [findVal, hpa, if_false] at h
      simp only [List.map_cons, List.mem_cons]
      exact Or.inr (mem_keys_of_findVal_some h)

theorem findVal_foldl {χ σ υ : Type} (resolve : χ → σ → υ) (parent : σ)
    {a : String} (ha : a ≠ "") :
    ∀ (kws : List (Keyword χ)) (m : List (String × υ)),
      findVal (List.foldl (kwStep resolve parent) m kws) a =
        ((kws.filter (fun kw => kw.arg == some a)).getLast?).elim
          (findVal m a) (fun kw => some (resolve kw.value parent))
  | [], m => by simp
  | kw :: kws, m => by
    simp only [List.foldl_cons]
    cases hkw : kw.arg with
    | none =>
      have hstep : kwStep resolve parent m kw = m := by simp [kwStep, hkw]
      have hpred : (kw.arg == some a) = false := by simp [hkw]
      simp only [List.filter_cons, hpred, if_false, hstep]
      exact findVal_foldl resolve parent ha kws m
    | some b =>
      by_cases hb : b = ""
      · have hstep : kwStep resolve parent m kw = m := by simp [kwStep, hkw, hb]
        have hpred : (kw.arg == some a) = false := by
          simp [hkw, hb, Ne.symm ha]
        simp only [List.filter_cons, hpred, if_false, hstep]
        exact findVal_foldl resolve parent ha kws m
      · by_cases hba : b = a
        · subst hba
          have hstep : kwStep resolve parent m kw =
              dictInsert m b (resolve kw.value parent) := by simp [kwStep, hkw, hb]
          have hpred : (kw.arg == some b) = true := by simp [hkw]
          simp only [List.filter_cons, hpred, if_true, hstep]
          have ih := findVal_foldl resolve parent ha kws
            (dictInsert m b (resolve kw.value parent))
          rw [ih]
          cases hfil : kws.filter (fun kw => kw.arg == some b) with
          | nil => simp [findVal_dictInsert_self]
          | cons c t =>
            rw [List.getLast?_cons_cons]
            cases hg : (c :: t).getLast? with
            | none => exact absurd (List.getLast?_eq_none_iff.mp hg) (by simp)
            | some x => simp
        · have hstep : kwStep resolve parent m kw =
              dictInsert m b (resolve kw.value parent) := by simp [kwStep, hkw, hb]
          have hpred : (kw.arg == some a) = false := by simp [hkw, hba]
          simp only [List.filter_cons, hpred, Bool.false_eq_true, if_false, hstep]
          have ih := findVal_foldl resolve parent ha kws
            (dictInsert m b (resolve kw.value parent))
          rw [ih, findVal_dictInsert_ne hba (resolve kw.value parent) m]

theorem foldl_kwStep_filter {χ σ υ : Type} (resolve : χ → σ → υ) (parent : σ) :
    ∀ (kws : List (Keyword χ)) (m : List (String × υ)),
      List.foldl (kwStep resolve parent) m kws =
        List.foldl (kwStep resolve parent) m (kws.filter kwTruthy)
  | [], _ => rfl
  | kw :: kws, m => by
    simp only [List.foldl_cons]
    cases hkw : kw.arg with
    | none =>
      have ht : kwTruthy kw = false := by simp [kwTruthy, hkw]
      have hstep : kwStep resolve parent m kw = m := by simp [kwStep, hkw]
      simp only [List.filter_cons, ht, if_false, hstep]
      exact foldl_kwStep_filter resolve parent kws m
    | some b =>
      by_cases hb : b = ""
      · have ht : kwTruthy kw = false := by simp [kwTruthy, hkw, hb]
        have hstep : kwStep resolve parent m kw = m := by simp [kwStep, hkw, hb]
        simp only [List.filter_cons, ht, if_false, hstep]
        exact foldl_kwStep_filter resolve parent kws m
      · have ht : kwTruthy kw = true := by simp [kwTruthy, hkw, hb]
        simp only [List.filter_cons, ht, if_true, List.foldl_cons]
        exact foldl_kwStep_filter resolve parent kws (kwStep resolve parent m kw)

theorem dictInsert_append_of_not_mem {υ : Type} {k : String} (v : υ) :
    ∀ {m : List (String × υ)}, (∀ p ∈ m, p.1 ≠ k) → dictInsert m k v = m ++ [(k, v)]
  | [], _ => rfl
  | p :: m, hnm => by
    have hpk : ¬p.1 = k := hnm p (List.mem_cons_self p m)
    simp only [dictInsert, hpk, if_false, List.cons_append]
    exact congrArg (List.cons p)
      (dictInsert_append_of_not_mem v (fun q hq => hnm q (List.mem_cons_of_mem p hq)))

theorem foldl_kwStep_append {χ σ υ : Type} (resolve : χ → σ → υ) (parent : σ) :
    ∀ (kws : List (Keyword χ)) (m : List (String × υ)),
      (∀ kw ∈ kws, kw.arg ≠ none ∧ kw.arg ≠ some "") →
      (kws.filterMap Keyword.arg).Nodup →
      (∀ kw ∈ kws, ∀ p ∈ m, kw.arg ≠ some p.1) →
      List.foldl (kwStep resolve parent) m kws =
        m ++ kws.map (fun kw => (kw.arg.getD "", resolve kw.value parent))
  | [], m, _, _, _ => by simp
  | kw :: kws, m, hlit, hnod, hdis => by
    obtain ⟨hn, he⟩ := hlit kw (List.mem_cons_self kw kws)
    cases hkw : kw.arg with
    | none => exact absurd hkw hn
    | some a =>
      have ha : a ≠ "" := fun hcon => he (by rw [hkw, hcon])
      have hstep : kwStep resolve parent m kw =
          dictInsert m a (resolve kw.value parent) := by simp [kwStep, hkw, ha]
      have hnma : ∀ p ∈ m, p.1 ≠ a := by
        intro p hp hcon
        exact hdis kw (List.mem_cons_self kw kws) p hp (by rw [hkw, hcon])
      have hnod' : (a :: kws.filterMap Keyword.arg).Nodup := by
        have : (kw :: kws).filterMap Keyword.arg = a :: kws.filterMap Keyword.arg := by
          simp [List.filterMap_cons, hkw]
        rwa [this] at hnod
      have hna : a ∉ kws.filterMap Keyword.arg := (List.nodup_cons.mp hnod').1
      have ih := foldl_kwStep_append resolve parent kws (m ++ [(a, resolve kw.value parent)])
        (fun q hq => hlit q (List.mem_cons_of_mem kw hq))
        (List.nodup_cons.mp hnod').2
        (by
          intro q hq p hp
          rcases List.mem_append.mp hp with hpm | hpa
          · exact hdis q (List.mem_cons_of_mem kw hq) p hpm
          · simp only [List.mem_singleton] at hpa
            subst hpa
            intro hcon
            exact hna (List.mem_filterMap.mpr ⟨q, hq, hcon⟩))
      simp only [List.foldl_cons, hstep, dictInsert_append_of_not_mem _ hnma, ih]
      simp [hkw, List.append_assoc]

/-- C4: the extractor skips every keyword entry without a (truthy) literal
name: the result equals the result on the keyword list with non-truthy
entries filtered out, and in particular a call with `a=1, **kwargs` yields
exactly the entry for `a`; no input makes the operation fail (it is total by
construction). -/
theorem extract_skips_unnamed {χ σ υ : Type} (resolve : χ → σ → υ)
    (node : Call χ) (parent : σ) :
    get_call_keyword_arguments resolve node parent =
      get_call_keyword_arguments resolve ⟨node.keywords.filter kwTruthy⟩ parent ∧
    ∀ v w : χ,
      get_call_keyword_arguments resolve ⟨[⟨some "a", v⟩, ⟨none, w⟩]⟩ parent =
        [("a", resolve v parent)] := by
  constructor
  · exact foldl_kwStep_filter resolve parent node.keywords []
  · intro v w
    rfl

/-- C5: on a call whose keyword arguments all carry literal (non-empty)
pairwise-distinct names, the extractor returns exactly one entry per keyword
argument, mapping each name to the resolver's result for its value, in the
order of the keyword list. -/
theorem extract_maps_each_kwarg_in_order {χ σ υ : Type} (resolve : χ → σ → υ)
    (kws : List (Keyword χ)) (parent : σ)
    (hlit : ∀ kw ∈ kws, kw.arg ≠ none ∧ kw.arg ≠ some "")
    (hnod : (kws.filterMap Keyword.arg).Nodup) :
    get_call_keyword_arguments resolve ⟨kws⟩ parent =
      kws.map (fun kw => (kw.arg.getD "", resolve kw.value parent)) := by
  unfold get_call_keyword_arguments
  have h := foldl_kwStep_append resolve parent kws [] hlit hnod
    (fun kw _ p hp => absurd hp (List.not_mem_nil p))
  simpa using h

theorem C5_witness :
    (∀ kw ∈ ([⟨some "a", 1⟩, ⟨some "b", 2⟩] : List (Keyword Nat)),
      kw.arg ≠ none ∧ kw.arg ≠ some "") ∧
    (([⟨some "a", 1⟩, ⟨some "b", 2⟩] : List (Keyword Nat)).filterMap Keyword.arg).Nodup ∧
    get_call_keyword_arguments (fun (e : Nat) (_ : Unit) => e + 100)
        ⟨[⟨some "a", 1⟩, ⟨some "b", 2⟩]⟩ () =
      [("a", 101), ("b", 102)] :=
  ⟨by decide, by decide, by
    have h := extract_maps_each_kwarg_in_order (fun (e : Nat) (_ : Unit) => e + 100)
      [⟨some "a", 1⟩, ⟨some "b", 2⟩] () (by decide) (by decide)
    simpa using h⟩

/-- C6: when the same keyword name occurs more than once, the result contains
exactly one entry for that name, and its value is the resolved value of the
last occurrence in the keyword list. -/
theorem extract_repeated_name_last_wins {χ σ υ : Type} (resolve : χ → σ → υ)
    (kws : List (Keyword χ)) (parent : σ) (a : String) (ha : a ≠ "")
    (hrep : 2 ≤ (kws.filter (fun kw => kw.arg == some a)).length) :
    ((get_call_keyword_arguments resolve ⟨kws⟩ parent).map Prod.fst).count a = 1 ∧
    findVal (get_call_keyword_arguments resolve ⟨kws⟩ parent) a =
      ((kws.filter (fun kw => kw.arg == some a)).getLast?).map
        (fun kw => resolve kw.value parent) := by
  have hne : kws.filter (fun kw => kw.arg == some a) ≠ [] := by
    intro hcon
    rw [hcon] at hrep
    simp at hrep
  obtain ⟨kwl, hlast⟩ : ∃ kwl, (kws.filter (fun kw => kw.arg == some a)).getLast? = some kwl := by
    cases hl : (kws.filter (fun kw => kw.arg == some a)).getLast? with
    | none => exact absurd (List.getLast?_eq_none_iff.mp hl) hne
    | some kwl => exact ⟨kwl, rfl⟩
  have hfv : findVal (get_call_keyword_arguments resolve ⟨kws⟩ parent) a =
      some (resolve kwl.value parent) := by
    unfold get_call_keyword_arguments
    rw [findVal_foldl resolve parent ha kws [], hlast]
    rfl
  constructor
  · have hnod := keys_nodup_foldl resolve parent kws [] List.nodup_nil
    have hmem := mem_keys_of_findVal_some hfv
    exact List.count_eq_one_of_mem hnod hmem
  · rw [hfv, hlast]
    rfl

theorem C6_witness :
    ("a" : String) ≠ "" ∧
    2 ≤ (([⟨some "a", 1⟩, ⟨some "a", 2⟩] : List (Keyword Nat)).filter
      (fun kw => kw.arg == some "a")).length ∧
    (((get_call_keyword_arguments (fun (e : Nat) (_ : Unit) => e) ⟨[⟨some "a", 1⟩, ⟨some "a", 2⟩]⟩ ()).map
        Prod.fst).count "a" = 1 ∧
      findVal (get_call_keyword_arguments (fun (e : Nat) (_ : Unit) => e)
          ⟨[⟨some "a", 1⟩, ⟨some "a", 2⟩]⟩ ()) "a" =
        ((([⟨some "a", 1⟩, ⟨some "a", 2⟩] : List (Keyword Nat)).filter
          (fun kw => kw.arg == some "a")).getLast?).map (fun kw => kw.value)) :=
  ⟨by decide, by decide,
    extract_repeated_name_last_wins (fun (e : Nat) (_ : Unit) => e)
      [⟨some "a", 1⟩, ⟨some "a", 2⟩] () "a" (by decide) (by decide)⟩

end Griffe
